import Mathlib

set_option maxHeartbeats 1000000

/-!
Shallow embedding of `certbot-runner/certbot_runner.py`.

Paths are modelled as `String` (a wrapper around `List Char` in this Lean
version); the POSIX path-manipulation functions used by the program
(`os.path.join`, `os.path.abspath`, `os.path.normpath`, `os.path.commonprefix`)
are reimplemented faithfully from CPython's `posixpath` module, working on the
underlying character lists.  The local filesystem and the object store are
modelled as association lists from paths (resp. container/key pairs) to file
contents; writes shadow earlier entries.  The handler's effectful steps are
threaded explicitly through a `World` record, and the external ACME renewal
call (`certbot.main.main`) is an opaque parameter transforming the local
filesystem.
-/

/-- Split a character list on the separator `'/'`, mirroring Python's
`str.split('/')` (empty components are kept). -/
def splitComps : List Char → List (List Char)
  | [] => [[]]
  | c :: rest =>
    if c = '/' then [] :: splitComps rest
    else (c :: (splitComps rest).headI) :: (splitComps rest).tail

/-- Join components with `'/'` separators, mirroring `'/'.join(comps)`. -/
def joinComps : List (List Char) → List Char
  | [] => []
  | [c] => c
  | c :: cs => c ++ '/' :: joinComps cs

/-- The component-processing loop of CPython's `posixpath.normpath`: skip empty
and `'.'` components, resolve `'..'` against the accumulated stack (kept in
reverse order here; Python appends/pops at the right end). -/
def normLoop (hasRoot : Bool) : List (List Char) → List (List Char) → List (List Char)
  | acc, [] => acc.reverse
  | acc, comp :: rest =>
    if comp = [] ∨ comp = ['.'] then normLoop hasRoot acc rest
    else if comp ≠ ['.', '.'] ∨ (hasRoot = false ∧ acc = []) ∨ acc.headI = ['.', '.'] then
      normLoop hasRoot (comp :: acc) rest
    else normLoop hasRoot acc.tail rest

/-- CPython's `posixpath.normpath` on character lists: empty path becomes `'.'`,
one or two initial slashes are preserved (three or more collapse to one), then
components are normalised by `normLoop`. -/
def normpathL (p : List Char) : List Char :=
  if p = [] then ['.']
  else
    let slashes : Nat :=
      if p.take 3 = ['/', '/', '/'] then 1
      else if p.take 2 = ['/', '/'] then 2
      else if p.take 1 = ['/'] then 1 else 0
    let body := joinComps (normLoop (slashes != 0) [] (splitComps p))
    let out := List.replicate slashes '/' ++ body
    if out = [] then ['.'] else out

/-- CPython's `posixpath.join` for two arguments, on character lists: an
absolute second argument discards the first; otherwise a separator is inserted
unless the first is empty or already ends in one. -/
def joinL (a b : List Char) : List Char :=
  if b.take 1 = ['/'] then b
  else if a = [] ∨ a.getLast? = some '/' then a ++ b
  else a ++ '/' :: b

/-- CPython's `posixpath.abspath` on character lists: relative paths are joined
with the current working directory, then the result is normalised. -/
def abspathL (cwd p : List Char) : List Char :=
  if p.take 1 = ['/'] then normpathL p else normpathL (joinL cwd p)

/-- Longest common character prefix of two lists, mirroring
`os.path.commonprefix` applied to a two-element list. -/
def lcpL : List Char → List Char → List Char
  | a :: as, b :: bs => if a = b then a :: lcpL as bs else []
  | _, _ => []

/-- Model of `os.path.normpath` on strings. -/
def ospath_normpath (p : String) : String := String.mk (normpathL p.data)

/-- Model of `os.path.join` on strings (two arguments, as used by the code). -/
def ospath_join (a b : String) : String := String.mk (joinL a.data b.data)

/-- Model of `os.path.abspath` on strings, with the process working directory
passed explicitly. -/
def ospath_abspath (cwd p : String) : String := String.mk (abspathL cwd.data p.data)

/-- Model of `os.path.commonprefix` applied to a two-element list of strings:
the longest common character prefix (a plain string computation, not a
path-component computation). -/
def common_pfx (a b : String) : String := String.mk (lcpL a.data b.data)

/-- A path component is good when it is nonempty and neither `.` nor `..`;
paths all of whose components are good are fixed points of `normpathL`. -/
def goodComp (c : List Char) : Bool :=
  !(c == []) && !(c == ['.']) && !(c == ['.', '.'])

/-- A character list is a normalised absolute path when it starts with a single
slash followed by at least one character and its components are all good. -/
def isNormalAbsL (p : List Char) : Bool :=
  match p with
  | [] => false
  | c :: rest => (c == '/') && (rest != []) && (splitComps rest).all goodComp

/-- Contents of a file or stored object: raw bytes, a tar archive (a list of
named members), or a zip archive (a list of named members). -/
inductive Content where
  | bytes : String → Content
  | tar : List (String × Content) → Content
  | zip : List (String × Content) → Content

/-- The local filesystem: an association list from absolute paths to contents.
Writes shadow earlier entries for the same path. -/
abbrev FS := List (String × Content)

/-- Write (create or overwrite) the file at path `p`. -/
def FS.write (fs : FS) (p : String) (c : Content) : FS :=
  (p, c) :: fs.filter (fun e => !(e.1 == p))

/-- Read the file at path `p`, if present. -/
def FS.read (fs : FS) (p : String) : Option Content :=
  (fs.find? (fun e => e.1 == p)).map (fun e => e.2)

/-- The function `is_within_directory` from `certbot_runner.py`: resolve both
paths with `os.path.abspath`, take their common string prefix, and test whether
it equals the directory's absolute path. -/
def is_within_directory (cwd directory target : String) : Bool :=
  let abs_directory := ospath_abspath cwd directory
  let abs_target := ospath_abspath cwd target
  let pfx := common_pfx abs_directory abs_target
  pfx == abs_directory

/-- The validation loop of `safe_extract`: for each member, join its name with
the destination and check `is_within_directory`; raise on the first failure. -/
def validate_members (cwd path : String) : List (String × Content) → Except String Unit
  | [] => Except.ok ()
  | member :: rest =>
    let member_path := ospath_join path member.1
    if is_within_directory cwd path member_path then validate_members cwd path rest
    else Except.error "Attempted Path Traversal in Tar File"

/-- Model of `tar.extractall(path)`: write every member's content to the
resolved absolute path obtained by joining the destination with the member's
name (the operating system resolves `..` segments, modelled lexically by
`abspath`). -/
def extractall (cwd : String) (members : List (String × Content)) (path : String) (fs : FS) : FS :=
  members.foldl (fun acc m => acc.write (ospath_abspath cwd (ospath_join path m.1)) m.2) fs

/-- The function `safe_extract` from `certbot_runner.py`: validate every member
with `is_within_directory`, raising before anything is written if one fails;
only then call `extractall`. -/
def safe_extract (cwd : String) (tar : List (String × Content)) (path : String) (fs : FS) :
    Except String Unit × FS :=
  match validate_members cwd path tar with
  | Except.error e => (Except.error e, fs)
  | Except.ok () => (Except.ok (), extractall cwd tar path fs)

/-- Model of `tar.add(sourceDir, arcname='')`: the fresh archive contains every
file whose path lies strictly under `sourceDir`, named by its path relative to
`sourceDir` (the directory's own name is stripped). -/
def archive_add (sourceDir : String) (fs : FS) : List (String × Content) :=
  fs.filterMap (fun e =>
    if (sourceDir.data ++ ['/']).isPrefixOf e.1.data then
      some (String.mk (e.1.data.drop (sourceDir.data.length + 1)), e.2)
    else none)

/-- Model of the `zipfile.ZipFile(outPath, 'x')` block of the handler: mode
`'x'` is exclusive-create, so an existing file at `outPath` raises
`FileExistsError` before anything is touched; otherwise the (initially empty)
zip is created, then the two source files are read and added under the fixed
member names `privkey.pem` and `fullchain.pem`. -/
def package_bundle (privkeyPath fullchainPath outPath : String) (fs : FS) :
    Except String Unit × FS :=
  match fs.read outPath with
  | some _ => (Except.error "FileExistsError", fs)
  | none =>
    let fs1 := fs.write outPath (Content.zip [])
    match fs1.read privkeyPath with
    | none => (Except.error "FileNotFoundError", fs1)
    | some kc =>
      let fs2 := fs1.write outPath (Content.zip [("privkey.pem", kc)])
      match fs2.read fullchainPath with
      | none => (Except.error "FileNotFoundError", fs2)
      | some cc =>
        (Except.ok (), fs2.write outPath (Content.zip [("privkey.pem", kc), ("fullchain.pem", cc)]))

/-- The object store: an association list from (container, key) pairs to
contents; `put` shadows earlier entries. -/
abbrev S3 := List ((String × String) × Content)

/-- Look up the object stored at `(container, key)`. -/
def S3.get (s : S3) (bk : String × String) : Option Content :=
  (s.find? (fun e => e.1 == bk)).map (fun e => e.2)

/-- Store (create or overwrite) the object at `(container, key)`. -/
def S3.put (s : S3) (bk : String × String) (c : Content) : S3 :=
  (bk, c) :: s.filter (fun e => !(e.1 == bk))

/-- Look up an environment variable, mirroring `os.environ[k]` (which raises
`KeyError` when the variable is absent). -/
def os_environ_get (env : List (String × String)) (k : String) : Option String :=
  (env.find? (fun e => e.1 == k)).map (fun e => e.2)

/-- The container name used by all three storage operations of the handler. -/
def bucket_name (region subdomain : String) : String :=
  region ++ ".liquidity-certbot-runner-infrastructure-" ++ subdomain

/-- The observable state threaded through a handler invocation: the process
environment, the object store, and the local filesystem. -/
structure World where
  env : List (String × String)
  s3 : S3
  fs : FS

/-- The function `handler` from `certbot_runner.py`, step by step: read
`SUBDOMAIN` and `AWS_REGION` from the environment (each raising `KeyError` when
absent), download `state.tar` from the computed container, open it as a tar and
`safe_extract` it into `/tmp/config-dir`, invoke the external ACME renewal
(`certbot.main.main`, the opaque `certbot_main` parameter), re-archive
`/tmp/config-dir` with `arcname=''` into `/tmp/state.tar`, upload it back to
`state.tar`, package the two certificate files into `/tmp/certbundle.zip` in
exclusive-create mode, and upload that to `certbundle.zip`.  Every error
propagates out, carrying the world at the point of failure. -/
def handler (cwd : String) (certbot_main : String → FS → Except String FS) (w : World) :
    Except String Unit × World :=
  match os_environ_get w.env "SUBDOMAIN" with
  | none => (Except.error "KeyError: SUBDOMAIN", w)
  | some subdomain =>
    match os_environ_get w.env "AWS_REGION" with
    | none => (Except.error "KeyError: AWS_REGION", w)
    | some region =>
      let bucket := bucket_name region subdomain
      match S3.get w.s3 (bucket, "state.tar") with
      | none => (Except.error "ClientError: NoSuchKey", w)
      | some obj =>
        let fs1 := w.fs.write "/tmp/state.tar" obj
        match fs1.read "/tmp/state.tar" with
        | some (Content.tar members) =>
          match safe_extract cwd members "/tmp/config-dir" fs1 with
          | (Except.error e, fs2) => (Except.error e, { w with fs := fs2 })
          | (Except.ok (), fs2) =>
            match certbot_main subdomain fs2 with
            | Except.error e => (Except.error e, { w with fs := fs2 })
            | Except.ok fs3 =>
              let fs4 := fs3.write "/tmp/state.tar"
                (Content.tar (archive_add "/tmp/config-dir" fs3))
              match fs4.read "/tmp/state.tar" with
              | none => (Except.error "FileNotFoundError", { w with fs := fs4 })
              | some st =>
                let s3b := S3.put w.s3 (bucket, "state.tar") st
                match package_bundle
                    ("/tmp/config-dir/live/" ++ subdomain ++ ".liquidityapp.com/privkey.pem")
                    ("/tmp/config-dir/live/" ++ subdomain ++ ".liquidityapp.com/fullchain.pem")
                    "/tmp/certbundle.zip" fs4 with
                | (Except.error e, fs5) => (Except.error e, { w with s3 := s3b, fs := fs5 })
                | (Except.ok (), fs5) =>
                  match fs5.read "/tmp/certbundle.zip" with
                  | none => (Except.error "FileNotFoundError", { w with s3 := s3b, fs := fs5 })
                  | some bz =>
                    (Except.ok (),
                      { w with s3 := S3.put s3b (bucket, "certbundle.zip") bz, fs := fs5 })
        | _ => (Except.error "tarfile.ReadError", { w with fs := fs1 })

/-! Basic lemmas about the path primitives and the filesystem model. -/

theorem lcpL_eq_left_iff (a : List Char) : ∀ b : List Char, lcpL a b = a ↔ a.isPrefixOf b = true := by
  induction a with
  | nil => intro b; cases b <;> simp [lcpL, List.isPrefixOf]
  | cons x xs ih =>
    intro b
    cases b with
    | nil => simp [lcpL, List.isPrefixOf]
    | cons y ys =>
      by_cases hxy : x = y
      · subst hxy
        simp [lcpL, List.isPrefixOf, ih ys]
      · simp [lcpL, List.isPrefixOf, hxy]

theorem find?_key_filter_ne {κ ν : Type} [BEq κ] [LawfulBEq κ] {p q : κ} (h : q ≠ p) :
    ∀ l : List (κ × ν),
      (l.filter (fun e => !(e.1 == p))).find? (fun e => e.1 == q) =
        l.find? (fun e => e.1 == q) := by
  intro l
  induction l with
  | nil => rfl
  | cons e rest ih =>
    cases hpb : (e.1 == p) with
    | true =>
      have he1 : e.1 = p := by simpa using hpb
      have hqb : (e.1 == q) = false := by
        simp [he1]
        exact fun hpq => h hpq.symm
      simp [List.filter_cons, hpb, List.find?_cons, hqb, ih]
    | false =>
      cases hqb : (e.1 == q) with
      | true => simp [List.filter_cons, hpb, List.find?_cons, hqb]
      | false => simp [List.filter_cons, hpb, List.find?_cons, hqb, ih]

theorem FS.read_write_self (fs : FS) (p : String) (c : Content) :
    (fs.write p c).read p = some c := by
  simp [FS.read, FS.write, List.find?_cons]

theorem FS.read_write_ne (fs : FS) (p q : String) (c : Content) (h : q ≠ p) :
    (fs.write p c).read q = fs.read q := by
  have hp : (p == q) = false := by
    simp [beq_iff_eq]
    intro he
    exact h he.symm
  simp only [FS.read, FS.write, List.find?_cons, hp]
  rw [find?_key_filter_ne h]

theorem validate_members_ok_iff (cwd path : String) :
    ∀ tar : List (String × Content),
      validate_members cwd path tar = Except.ok () ↔
        ∀ m ∈ tar, is_within_directory cwd path (ospath_join path m.1) = true := by
  intro tar
  induction tar with
  | nil => simp [validate_members]
  | cons m rest ih =>
    by_cases hm : is_within_directory cwd path (ospath_join path m.1) = true
    · simp [validate_members, hm, ih]
    · simp [validate_members, hm]

theorem validate_members_error_of_mem (cwd path : String) {tar : List (String × Content)}
    {m : String × Content} (hmem : m ∈ tar)
    (hbad : is_within_directory cwd path (ospath_join path m.1) = false) :
    validate_members cwd path tar = Except.error "Attempted Path Traversal in Tar File" := by
  induction tar with
  | nil => cases hmem
  | cons e rest ih =>
    cases hmem with
    | head => simp [validate_members, hbad]
    | tail _ htail =>
      cases he : is_within_directory cwd path (ospath_join path e.1) with
      | true => simp [validate_members, he, ih htail]
      | false => simp [validate_members, he]

/-! Claim theorems C1 through C3. -/

/-- C1: the claim says `safe_extract` raises Path-Traversal for every archive
containing an entry that resolves outside the destination directory, and never
writes such an entry.  The code violates this: for the destination
`/tmp/config-dir`, the member named `../config-dir-extra/x` resolves to
`/tmp/config-dir-extra/x`, which lies outside the destination directory (it is
not the destination and does not live under it), yet `is_within_directory`'s
bare string-prefix test accepts it, so `safe_extract` succeeds and writes the
file outside the destination. -/
theorem safe_extract_admits_sibling_escape :
    safe_extract "/" [("../config-dir-extra/x", Content.bytes "evil")] "/tmp/config-dir" [] =
      (Except.ok (), [("/tmp/config-dir-extra/x", Content.bytes "evil")]) ∧
    ("/tmp/config-dir/".data.isPrefixOf "/tmp/config-dir-extra/x".data) = false ∧
    "/tmp/config-dir-extra/x" ≠ "/tmp/config-dir" := by
  refine ⟨rfl, rfl, ?_⟩
  decide

/-- C2: `safe_extract` validates every entry before extracting any entry; a
validation failure raises before a single file has been written, so the
filesystem is unchanged after any failed call, and any single failing member
makes the whole call fail. -/
theorem safe_extract_no_partial_extraction
    (cwd : String) (tar : List (String × Content)) (path : String) (fs : FS) :
    (∀ e : String, (safe_extract cwd tar path fs).1 = Except.error e →
      (safe_extract cwd tar path fs).2 = fs) ∧
    (∀ m ∈ tar, is_within_directory cwd path (ospath_join path m.1) = false →
      (safe_extract cwd tar path fs).1 = Except.error "Attempted Path Traversal in Tar File") := by
  constructor
  · intro e he
    unfold safe_extract at he ⊢
    cases hv : validate_members cwd path tar with
    | error e2 => rfl
    | ok u => rw [hv] at he; cases u; cases he
  · intro m hm hbad
    unfold safe_extract
    rw [validate_members_error_of_mem cwd path hm hbad]

/-- Witness for C2 at a concrete input: an archive containing the absolute
member name `/etc/passwd` fails validation, and the failed call leaves the
(empty) filesystem unchanged. -/
theorem safe_extract_no_partial_extraction_witness :
    (safe_extract "/" [("a", Content.bytes "ok"), ("/etc/passwd", Content.bytes "evil")]
        "/tmp/config-dir" []).1 = Except.error "Attempted Path Traversal in Tar File" ∧
    (safe_extract "/" [("a", Content.bytes "ok"), ("/etc/passwd", Content.bytes "evil")]
        "/tmp/config-dir" []).2 = ([] : FS) := by
  constructor
  · exact (safe_extract_no_partial_extraction "/"
      [("a", Content.bytes "ok"), ("/etc/passwd", Content.bytes "evil")] "/tmp/config-dir" []).2
      ("/etc/passwd", Content.bytes "evil") (by simp) rfl
  · exact (safe_extract_no_partial_extraction "/"
      [("a", Content.bytes "ok"), ("/etc/passwd", Content.bytes "evil")] "/tmp/config-dir" []).1
      "Attempted Path Traversal in Tar File" rfl

/-- C3: `is_within_directory` accepts exactly when the resolved absolute target
has the resolved absolute directory as a character-string prefix; in particular
a target resolving to the destination itself passes, and a sibling path that
merely extends the destination's name as a string (here
`/tmp/config-dir-extra/file` for destination `/tmp/config-dir`) also passes. -/
theorem is_within_directory_string_prefix_semantics :
    (∀ cwd directory target : String,
      is_within_directory cwd directory target = true ↔
        ((ospath_abspath cwd directory).data.isPrefixOf
          (ospath_abspath cwd target).data) = true) ∧
    is_within_directory "/" "/tmp/config-dir" (ospath_join "/tmp/config-dir" ".") = true ∧
    is_within_directory "/" "/tmp/config-dir"
      (ospath_join "/tmp/config-dir" "../config-dir-extra/file") = true := by
  refine ⟨?_, rfl, rfl⟩
  intro cwd directory target
  unfold is_within_directory common_pfx
  simp only [beq_iff_eq]
  constructor
  · intro h
    have := congrArg String.data h
    simp only at this
    exact (lcpL_eq_left_iff (ospath_abspath cwd directory).data
      (ospath_abspath cwd target).data).mp this
  · intro h
    have := (lcpL_eq_left_iff (ospath_abspath cwd directory).data
      (ospath_abspath cwd target).data).mpr h
    exact congrArg String.mk this

theorem S3.get_put_self (s : S3) (bk : String × String) (c : Content) :
    (s.put bk c).get bk = some c := by
  simp [S3.get, S3.put, List.find?_cons]

theorem S3.get_put_ne (s : S3) (bk bk2 : String × String) (c : Content) (h : bk2 ≠ bk) :
    (s.put bk c).get bk2 = s.get bk2 := by
  have hp : (bk == bk2) = false := by
    simp [beq_iff_eq]
    intro he
    exact h he.symm
  simp only [S3.get, S3.put, List.find?_cons, hp]
  rw [find?_key_filter_ne h]

/-! Claim theorems C5, C8 and C10. -/

/-- C5: the bundle is created in exclusive-create mode: when `package_bundle`
has succeeded once, a second call at the same output path fails with
Already-Exists, leaves the filesystem untouched, and in particular does not
alter the contents of the file produced by the first call. -/
theorem package_bundle_exclusive_create
    (pk fc out : String) (fs fs2 : FS)
    (h : package_bundle pk fc out fs = (Except.ok (), fs2)) :
    package_bundle pk fc out fs2 = (Except.error "FileExistsError", fs2) ∧
    (package_bundle pk fc out fs2).2.read out = fs2.read out := by
  have hread : ∃ z, fs2.read out = some z := by
    unfold package_bundle at h
    cases hout : fs.read out with
    | some c =>
      simp only [hout] at h
      exact absurd (congrArg Prod.fst h) (by simp)
    | none =>
      simp only [hout] at h
      cases hpk : (fs.write out (Content.zip [])).read pk with
      | none =>
        simp only [hpk] at h
        exact absurd (congrArg Prod.fst h) (by simp)
      | some kc =>
        simp only [hpk] at h
        cases hfc : ((fs.write out (Content.zip [])).write out
            (Content.zip [("privkey.pem", kc)])).read fc with
        | none =>
          simp only [hfc] at h
          exact absurd (congrArg Prod.fst h) (by simp)
        | some cc =>
          simp only [hfc] at h
          have h2 := congrArg Prod.snd h
          simp only at h2
          exact ⟨_, h2 ▸ FS.read_write_self _ out _⟩
  obtain ⟨z, hz⟩ := hread
  constructor
  · unfold package_bundle
    simp only [hz]
  · unfold package_bundle
    simp only [hz]

/-- Witness for C5 at a concrete input: packaging succeeds once into an empty
output path, and the second call at the same output path fails with
Already-Exists, leaving the first bundle in place. -/
theorem package_bundle_exclusive_create_witness :
    package_bundle "/a/privkey.pem" "/a/fullchain.pem" "/tmp/certbundle.zip"
        (package_bundle "/a/privkey.pem" "/a/fullchain.pem" "/tmp/certbundle.zip"
          [("/a/privkey.pem", Content.bytes "K"), ("/a/fullchain.pem", Content.bytes "C")]).2 =
      (Except.error "FileExistsError",
        (package_bundle "/a/privkey.pem" "/a/fullchain.pem" "/tmp/certbundle.zip"
          [("/a/privkey.pem", Content.bytes "K"), ("/a/fullchain.pem", Content.bytes "C")]).2) :=
  (package_bundle_exclusive_create "/a/privkey.pem" "/a/fullchain.pem" "/tmp/certbundle.zip"
    [("/a/privkey.pem", Content.bytes "K"), ("/a/fullchain.pem", Content.bytes "C")] _ rfl).1

/-- C8: for source files at arbitrary paths (distinct from the output path),
a successful `package_bundle` stores at the output path a zip containing
exactly the two entries `privkey.pem` and `fullchain.pem` at the archive root,
in that order, with the source files' contents, and no other entries. -/
theorem package_bundle_two_fixed_entries
    (pk fc out : String) (fs : FS) (kc cc : Content)
    (hout : fs.read out = none) (hpko : pk ≠ out) (hfco : fc ≠ out)
    (hpk : fs.read pk = some kc) (hfc : fs.read fc = some cc) :
    (package_bundle pk fc out fs).1 = Except.ok () ∧
    (package_bundle pk fc out fs).2.read out =
      some (Content.zip [("privkey.pem", kc), ("fullchain.pem", cc)]) := by
  have h1 : (fs.write out (Content.zip [])).read pk = some kc := by
    rw [FS.read_write_ne fs out pk _ hpko]; exact hpk
  have h2 : ((fs.write out (Content.zip [])).write out
      (Content.zip [("privkey.pem", kc)])).read fc = some cc := by
    rw [FS.read_write_ne _ out fc _ hfco, FS.read_write_ne fs out fc _ hfco]; exact hfc
  unfold package_bundle
  simp only [hout, h1, h2]
  exact ⟨trivial, FS.read_write_self _ out _⟩

/-- Witness for C8 at a concrete input: source files three directories deep
produce a bundle whose only entries are `privkey.pem` and `fullchain.pem` at
the root. -/
theorem package_bundle_two_fixed_entries_witness :
    (package_bundle "/tmp/config-dir/live/dev.liquidityapp.com/privkey.pem"
        "/tmp/config-dir/live/dev.liquidityapp.com/fullchain.pem" "/tmp/certbundle.zip"
        [("/tmp/config-dir/live/dev.liquidityapp.com/privkey.pem", Content.bytes "KEY"),
         ("/tmp/config-dir/live/dev.liquidityapp.com/fullchain.pem", Content.bytes "CHAIN")]).2.read
      "/tmp/certbundle.zip" =
      some (Content.zip [("privkey.pem", Content.bytes "KEY"),
        ("fullchain.pem", Content.bytes "CHAIN")]) :=
  (package_bundle_two_fixed_entries
    "/tmp/config-dir/live/dev.liquidityapp.com/privkey.pem"
    "/tmp/config-dir/live/dev.liquidityapp.com/fullchain.pem" "/tmp/certbundle.zip"
    [("/tmp/config-dir/live/dev.liquidityapp.com/privkey.pem", Content.bytes "KEY"),
     ("/tmp/config-dir/live/dev.liquidityapp.com/fullchain.pem", Content.bytes "CHAIN")]
    (Content.bytes "KEY") (Content.bytes "CHAIN")
    rfl (by decide) (by decide) rfl rfl).2

/-- C10: a missing `SUBDOMAIN` environment variable makes the handler raise a
lookup error with the world untouched (so no storage operation has happened),
and a missing `AWS_REGION` (with `SUBDOMAIN` present) likewise raises a lookup
error with the world untouched. -/
theorem handler_missing_env_raises :
    (∀ (cwd : String) (certbot_main : String → FS → Except String FS) (w : World),
      os_environ_get w.env "SUBDOMAIN" = none →
        handler cwd certbot_main w = (Except.error "KeyError: SUBDOMAIN", w)) ∧
    (∀ (cwd : String) (certbot_main : String → FS → Except String FS) (w : World) (sd : String),
      os_environ_get w.env "SUBDOMAIN" = some sd →
      os_environ_get w.env "AWS_REGION" = none →
        handler cwd certbot_main w = (Except.error "KeyError: AWS_REGION", w)) := by
  constructor
  · intro cwd certbot_main w h
    unfold handler
    simp only [h]
  · intro cwd certbot_main w sd h1 h2
    unfold handler
    simp only [h1, h2]

/-- Witness for C10 at concrete worlds: with an empty environment the handler
fails on the subdomain lookup without touching anything; with only `SUBDOMAIN`
set it fails on the region lookup without touching anything. -/
theorem handler_missing_env_raises_witness :
    handler "/" (fun _ fs => Except.ok fs) (World.mk [] [] []) =
      (Except.error "KeyError: SUBDOMAIN", World.mk [] [] []) ∧
    handler "/" (fun _ fs => Except.ok fs) (World.mk [("SUBDOMAIN", "dev")] [] []) =
      (Except.error "KeyError: AWS_REGION", World.mk [("SUBDOMAIN", "dev")] [] []) :=
  ⟨handler_missing_env_raises.1 "/" (fun _ fs => Except.ok fs) (World.mk [] [] []) rfl,
   handler_missing_env_raises.2 "/" (fun _ fs => Except.ok fs)
     (World.mk [("SUBDOMAIN", "dev")] [] []) "dev" rfl rfl⟩

/-! Claim theorem C4. -/

/-- C4: when every step up to and including the state re-upload succeeds and
bundle packaging then fails (here: the local bundle path is already occupied),
the handler propagates the error, the state object in storage remains updated
to the re-archived working tree, and no new bundle object is uploaded — no
completed step is rolled back. -/
theorem handler_no_rollback_after_state_upload
    (cwd : String) (certbot_main : String → FS → Except String FS) (w : World)
    (sd rg : String) (members : List (String × Content)) (fs3 : FS) (z : Content)
    (h1 : os_environ_get w.env "SUBDOMAIN" = some sd)
    (h2 : os_environ_get w.env "AWS_REGION" = some rg)
    (h3 : S3.get w.s3 (bucket_name rg sd, "state.tar") = some (Content.tar members))
    (h4 : validate_members cwd "/tmp/config-dir" members = Except.ok ())
    (h5 : certbot_main sd
        (extractall cwd members "/tmp/config-dir"
          (w.fs.write "/tmp/state.tar" (Content.tar members))) = Except.ok fs3)
    (h6 : fs3.read "/tmp/certbundle.zip" = some z) :
    (handler cwd certbot_main w).1 = Except.error "FileExistsError" ∧
    S3.get (handler cwd certbot_main w).2.s3 (bucket_name rg sd, "state.tar") =
      some (Content.tar (archive_add "/tmp/config-dir" fs3)) ∧
    S3.get (handler cwd certbot_main w).2.s3 (bucket_name rg sd, "certbundle.zip") =
      S3.get w.s3 (bucket_name rg sd, "certbundle.zip") := by
  have hb : (fs3.write "/tmp/state.tar"
      (Content.tar (archive_add "/tmp/config-dir" fs3))).read "/tmp/certbundle.zip" = some z := by
    rw [FS.read_write_ne _ _ _ _ (by decide)]
    exact h6
  have hk : ((bucket_name rg sd, "certbundle.zip") : String × String) ≠
      (bucket_name rg sd, "state.tar") := by
    intro hC
    have h2C : ("certbundle.zip" : String) = "state.tar" := congrArg Prod.snd hC
    exact absurd h2C (by decide)
  simp only [handler, h1, h2, h3, FS.read_write_self, safe_extract, h4, h5, package_bundle, hb]
  exact ⟨trivial, S3.get_put_self _ _ _, S3.get_put_ne _ _ _ _ hk⟩

/-- Witness for C4 at a concrete input: the state object is present, extraction
and renewal succeed, the state re-upload happens, and a pre-existing local
`/tmp/certbundle.zip` makes packaging fail; the stored state stays updated and
the stored bundle key is untouched. -/
theorem handler_no_rollback_after_state_upload_witness :
    (handler "/" (fun _ fs => Except.ok fs)
      (World.mk [("SUBDOMAIN", "dev"), ("AWS_REGION", "eu")]
        [(("eu.liquidity-certbot-runner-infrastructure-dev", "state.tar"),
          Content.tar [("a", Content.bytes "X")])]
        [("/tmp/certbundle.zip", Content.bytes "old")])).1 = Except.error "FileExistsError" ∧
    S3.get (handler "/" (fun _ fs => Except.ok fs)
      (World.mk [("SUBDOMAIN", "dev"), ("AWS_REGION", "eu")]
        [(("eu.liquidity-certbot-runner-infrastructure-dev", "state.tar"),
          Content.tar [("a", Content.bytes "X")])]
        [("/tmp/certbundle.zip", Content.bytes "old")])).2.s3
      (bucket_name "eu" "dev", "state.tar") =
      some (Content.tar (archive_add "/tmp/config-dir"
        (extractall "/" [("a", Content.bytes "X")] "/tmp/config-dir"
          (FS.write [("/tmp/certbundle.zip", Content.bytes "old")] "/tmp/state.tar"
            (Content.tar [("a", Content.bytes "X")]))))) ∧
    S3.get (handler "/" (fun _ fs => Except.ok fs)
      (World.mk [("SUBDOMAIN", "dev"), ("AWS_REGION", "eu")]
        [(("eu.liquidity-certbot-runner-infrastructure-dev", "state.tar"),
          Content.tar [("a", Content.bytes "X")])]
        [("/tmp/certbundle.zip", Content.bytes "old")])).2.s3
      (bucket_name "eu" "dev", "certbundle.zip") =
      S3.get [(("eu.liquidity-certbot-runner-infrastructure-dev", "state.tar"),
          Content.tar [("a", Content.bytes "X")])]
        (bucket_name "eu" "dev", "certbundle.zip") :=
  handler_no_rollback_after_state_upload "/" (fun _ fs => Except.ok fs)
    (World.mk [("SUBDOMAIN", "dev"), ("AWS_REGION", "eu")]
      [(("eu.liquidity-certbot-runner-infrastructure-dev", "state.tar"),
        Content.tar [("a", Content.bytes "X")])]
      [("/tmp/certbundle.zip", Content.bytes "old")])
    "dev" "eu" [("a", Content.bytes "X")]
    (extractall "/" [("a", Content.bytes "X")] "/tmp/config-dir"
      (FS.write [("/tmp/certbundle.zip", Content.bytes "old")] "/tmp/state.tar"
        (Content.tar [("a", Content.bytes "X")])))
    (Content.bytes "old") rfl rfl rfl rfl rfl rfl

/-! Helpers for the end-to-end happy-path theorem. -/

theorem config_live_path_ne (sd suf lit : String)
    (h : "/tmp/config-dir/live/".data.take 7 ≠ lit.data.take 7) :
    "/tmp/config-dir/live/" ++ sd ++ suf ≠ lit := by
  intro hC
  have hdata : ("/tmp/config-dir/live/".data ++ sd.data) ++ suf.data = lit.data :=
    congrArg String.data hC
  rw [List.append_assoc] at hdata
  have h7 := congrArg (List.take 7) hdata
  rw [List.take_append_of_le_length (by decide)] at h7
  exact h h7

theorem package_bundle_success_eq (pk fc out : String) (fs : FS) (kc cc : Content)
    (hout : fs.read out = none) (hpko : pk ≠ out) (hfco : fc ≠ out)
    (hpk : fs.read pk = some kc) (hfc : fs.read fc = some cc) :
    package_bundle pk fc out fs =
      (Except.ok (), ((fs.write out (Content.zip [])).write out
          (Content.zip [("privkey.pem", kc)])).write out
          (Content.zip [("privkey.pem", kc), ("fullchain.pem", cc)])) := by
  have h1 : (fs.write out (Content.zip [])).read pk = some kc := by
    rw [FS.read_write_ne fs out pk _ hpko]; exact hpk
  have h2 : ((fs.write out (Content.zip [])).write out
      (Content.zip [("privkey.pem", kc)])).read fc = some cc := by
    rw [FS.read_write_ne _ out fc _ hfco, FS.read_write_ne fs out fc _ hfco]; exact hfc
  unfold package_bundle
  simp only [hout, h1, h2]

/-! Claim theorem C9. -/

/-- C9: on a successful run, all three storage operations use the container
`<region>.liquidity-certbot-runner-infrastructure-<subdomain>`; the state
archive is downloaded from and re-uploaded to the key `state.tar` (ending up as
the re-archived working tree), the bundle is uploaded to the key
`certbundle.zip` in that same container, and every other container/key is left
untouched. -/
theorem handler_container_and_keys
    (cwd : String) (certbot_main : String → FS → Except String FS) (w : World)
    (sd rg : String) (members : List (String × Content)) (fs3 : FS) (kc cc : Content)
    (h1 : os_environ_get w.env "SUBDOMAIN" = some sd)
    (h2 : os_environ_get w.env "AWS_REGION" = some rg)
    (h3 : S3.get w.s3 (rg ++ ".liquidity-certbot-runner-infrastructure-" ++ sd, "state.tar") =
      some (Content.tar members))
    (h4 : validate_members cwd "/tmp/config-dir" members = Except.ok ())
    (h5 : certbot_main sd
        (extractall cwd members "/tmp/config-dir"
          (w.fs.write "/tmp/state.tar" (Content.tar members))) = Except.ok fs3)
    (h6 : fs3.read "/tmp/certbundle.zip" = none)
    (h7 : fs3.read ("/tmp/config-dir/live/" ++ sd ++ ".liquidityapp.com/privkey.pem") = some kc)
    (h8 : fs3.read ("/tmp/config-dir/live/" ++ sd ++ ".liquidityapp.com/fullchain.pem") = some cc) :
    (handler cwd certbot_main w).1 = Except.ok () ∧
    S3.get (handler cwd certbot_main w).2.s3
      (rg ++ ".liquidity-certbot-runner-infrastructure-" ++ sd, "state.tar") =
      some (Content.tar (archive_add "/tmp/config-dir" fs3)) ∧
    S3.get (handler cwd certbot_main w).2.s3
      (rg ++ ".liquidity-certbot-runner-infrastructure-" ++ sd, "certbundle.zip") =
      some (Content.zip [("privkey.pem", kc), ("fullchain.pem", cc)]) ∧
    (∀ bk : String × String,
      bk ≠ (rg ++ ".liquidity-certbot-runner-infrastructure-" ++ sd, "state.tar") →
      bk ≠ (rg ++ ".liquidity-certbot-runner-infrastructure-" ++ sd, "certbundle.zip") →
      S3.get (handler cwd certbot_main w).2.s3 bk = S3.get w.s3 bk) := by
  have hneA : ("/tmp/config-dir/live/" ++ sd ++ ".liquidityapp.com/privkey.pem" : String) ≠
      "/tmp/certbundle.zip" := config_live_path_ne sd _ _ (by decide)
  have hneB : ("/tmp/config-dir/live/" ++ sd ++ ".liquidityapp.com/privkey.pem" : String) ≠
      "/tmp/state.tar" := config_live_path_ne sd _ _ (by decide)
  have hneC : ("/tmp/config-dir/live/" ++ sd ++ ".liquidityapp.com/fullchain.pem" : String) ≠
      "/tmp/certbundle.zip" := config_live_path_ne sd _ _ (by decide)
  have hneD : ("/tmp/config-dir/live/" ++ sd ++ ".liquidityapp.com/fullchain.pem" : String) ≠
      "/tmp/state.tar" := config_live_path_ne sd _ _ (by decide)
  have hfs4out : (fs3.write "/tmp/state.tar"
      (Content.tar (archive_add "/tmp/config-dir" fs3))).read "/tmp/certbundle.zip" = none := by
    rw [FS.read_write_ne _ _ _ _ (by decide)]; exact h6
  have hfs4pk : (fs3.write "/tmp/state.tar"
      (Content.tar (archive_add "/tmp/config-dir" fs3))).read
      ("/tmp/config-dir/live/" ++ sd ++ ".liquidityapp.com/privkey.pem") = some kc := by
    rw [FS.read_write_ne _ _ _ _ hneB]; exact h7
  have hfs4fc : (fs3.write "/tmp/state.tar"
      (Content.tar (archive_add "/tmp/config-dir" fs3))).read
      ("/tmp/config-dir/live/" ++ sd ++ ".liquidityapp.com/fullchain.pem") = some cc := by
    rw [FS.read_write_ne _ _ _ _ hneD]; exact h8
  have hpb := package_bundle_success_eq
    ("/tmp/config-dir/live/" ++ sd ++ ".liquidityapp.com/privkey.pem")
    ("/tmp/config-dir/live/" ++ sd ++ ".liquidityapp.com/fullchain.pem")
    "/tmp/certbundle.zip"
    (fs3.write "/tmp/state.tar" (Content.tar (archive_add "/tmp/config-dir" fs3)))
    kc cc hfs4out hneA hneC hfs4pk hfs4fc
  have hkne : ((rg ++ ".liquidity-certbot-runner-infrastructure-" ++ sd, "state.tar") :
      String × String) ≠ (rg ++ ".liquidity-certbot-runner-infrastructure-" ++ sd,
      "certbundle.zip") := by
    intro hC
    have h2C : ("state.tar" : String) = "certbundle.zip" := congrArg Prod.snd hC
    exact absurd h2C (by decide)
  simp only [handler, bucket_name, h1, h2, h3, FS.read_write_self, safe_extract, h4, h5, hpb]
  refine ⟨trivial, ?_, ?_, ?_⟩
  · rw [S3.get_put_ne _ _ _ _ hkne]
    exact S3.get_put_self _ _ _
  · exact S3.get_put_self _ _ _
  · intro bk hbk1 hbk2
    rw [S3.get_put_ne _ _ _ _ hbk2, S3.get_put_ne _ _ _ _ hbk1]

/-- Witness for C9 at a concrete input: a state archive already containing the
two certificate files extracts cleanly, an identity renewal succeeds, and the
run uploads the re-archived state to `state.tar` and the two-entry bundle to
`certbundle.zip` in the computed container. -/
theorem handler_container_and_keys_witness :
    (handler "/" (fun _ fs => Except.ok fs)
      (World.mk [("SUBDOMAIN", "dev"), ("AWS_REGION", "eu")]
        [(("eu.liquidity-certbot-runner-infrastructure-dev", "state.tar"),
          Content.tar [("live/dev.liquidityapp.com/privkey.pem", Content.bytes "KEY"),
            ("live/dev.liquidityapp.com/fullchain.pem", Content.bytes "CHAIN")])]
        [])).1 = Except.ok () ∧
    S3.get (handler "/" (fun _ fs => Except.ok fs)
      (World.mk [("SUBDOMAIN", "dev"), ("AWS_REGION", "eu")]
        [(("eu.liquidity-certbot-runner-infrastructure-dev", "state.tar"),
          Content.tar [("live/dev.liquidityapp.com/privkey.pem", Content.bytes "KEY"),
            ("live/dev.liquidityapp.com/fullchain.pem", Content.bytes "CHAIN")])]
        [])).2.s3
      ("eu" ++ ".liquidity-certbot-runner-infrastructure-" ++ "dev", "state.tar") =
      some (Content.tar (archive_add "/tmp/config-dir"
        (extractall "/" [("live/dev.liquidityapp.com/privkey.pem", Content.bytes "KEY"),
            ("live/dev.liquidityapp.com/fullchain.pem", Content.bytes "CHAIN")]
          "/tmp/config-dir"
          (FS.write [] "/tmp/state.tar"
            (Content.tar [("live/dev.liquidityapp.com/privkey.pem", Content.bytes "KEY"),
              ("live/dev.liquidityapp.com/fullchain.pem", Content.bytes "CHAIN")]))))) ∧
    S3.get (handler "/" (fun _ fs => Except.ok fs)
      (World.mk [("SUBDOMAIN", "dev"), ("AWS_REGION", "eu")]
        [(("eu.liquidity-certbot-runner-infrastructure-dev", "state.tar"),
          Content.tar [("live/dev.liquidityapp.com/privkey.pem", Content.bytes "KEY"),
            ("live/dev.liquidityapp.com/fullchain.pem", Content.bytes "CHAIN")])]
        [])).2.s3
      ("eu" ++ ".liquidity-certbot-runner-infrastructure-" ++ "dev", "certbundle.zip") =
      some (Content.zip [("privkey.pem", Content.bytes "KEY"),
        ("fullchain.pem", Content.bytes "CHAIN")]) := by
  have H := handler_container_and_keys "/" (fun _ fs => Except.ok fs)
    (World.mk [("SUBDOMAIN", "dev"), ("AWS_REGION", "eu")]
      [(("eu.liquidity-certbot-runner-infrastructure-dev", "state.tar"),
        Content.tar [("live/dev.liquidityapp.com/privkey.pem", Content.bytes "KEY"),
          ("live/dev.liquidityapp.com/fullchain.pem", Content.bytes "CHAIN")])]
      [])
    "dev" "eu"
    [("live/dev.liquidityapp.com/privkey.pem", Content.bytes "KEY"),
     ("live/dev.liquidityapp.com/fullchain.pem", Content.bytes "CHAIN")]
    (extractall "/" [("live/dev.liquidityapp.com/privkey.pem", Content.bytes "KEY"),
        ("live/dev.liquidityapp.com/fullchain.pem", Content.bytes "CHAIN")]
      "/tmp/config-dir"
      (FS.write [] "/tmp/state.tar"
        (Content.tar [("live/dev.liquidityapp.com/privkey.pem", Content.bytes "KEY"),
          ("live/dev.liquidityapp.com/fullchain.pem", Content.bytes "CHAIN")])))
    (Content.bytes "KEY") (Content.bytes "CHAIN") rfl rfl rfl rfl rfl rfl rfl rfl
  exact ⟨H.1, H.2.1, H.2.2.1⟩

/-! Lemmas about path splitting and joining. -/

theorem splitComps_ne_nil : ∀ l : List Char, splitComps l ≠ [] := by
  intro l
  cases l with
  | nil => simp [splitComps]
  | cons c rest =>
    by_cases hc : c = '/'
    · simp [splitComps, hc]
    · simp [splitComps, hc]

theorem splitComps_cons_slash (rest : List Char) :
    splitComps ('/' :: rest) = [] :: splitComps rest := by
  simp [splitComps]

theorem splitComps_cons_ne (c : Char) (rest : List Char) (h : c ≠ '/') :
    splitComps (c :: rest) =
      (c :: (splitComps rest).headI) :: (splitComps rest).tail := by
  simp [splitComps, h]

theorem splitComps_append : ∀ a b : List Char,
    splitComps (a ++ '/' :: b) = splitComps a ++ splitComps b := by
  intro a b
  induction a with
  | nil =>
    rw [List.nil_append, splitComps_cons_slash]
    rfl
  | cons c rest ih =>
    rw [List.cons_append]
    by_cases hc : c = '/'
    · subst hc
      rw [splitComps_cons_slash, splitComps_cons_slash, ih, List.cons_append]
    · rw [splitComps_cons_ne c _ hc, splitComps_cons_ne c rest hc, ih]
      obtain ⟨h, t, hh⟩ := List.exists_cons_of_ne_nil (splitComps_ne_nil rest)
      rw [hh]
      simp

theorem joinComps_splitComps : ∀ l : List Char, joinComps (splitComps l) = l := by
  intro l
  induction l with
  | nil => simp [splitComps, joinComps]
  | cons c rest ih =>
    by_cases hc : c = '/'
    · subst hc
      simp only [splitComps, if_pos rfl]
      obtain ⟨h, t, hh⟩ : ∃ h t, splitComps rest = h :: t := by
        cases hsr : splitComps rest with
        | nil => exact absurd hsr (splitComps_ne_nil rest)
        | cons h t => exact ⟨h, t, rfl⟩
      rw [hh] at ih ⊢
      simp [joinComps, ih]
    · simp only [splitComps, if_neg hc]
      obtain ⟨h, t, hh⟩ : ∃ h t, splitComps rest = h :: t := by
        cases hsr : splitComps rest with
        | nil => exact absurd hsr (splitComps_ne_nil rest)
        | cons h t => exact ⟨h, t, rfl⟩
      rw [hh] at ih ⊢
      simp only [List.headI, List.tail]
      cases t with
      | nil => simp [joinComps] at ih ⊢; exact ih
      | cons t0 ts =>
        simp only [joinComps, List.cons_append] at ih ⊢
        rw [ih]

theorem splitComps_no_slash : ∀ (l : List Char) (c : List Char), c ∈ splitComps l →
    ∀ ch ∈ c, ch ≠ '/' := by
  intro l
  induction l with
  | nil =>
    intro c hc ch hch
    simp [splitComps] at hc
    subst hc
    cases hch
  | cons x rest ih =>
    intro c hc ch hch
    by_cases hx : x = '/'
    · simp only [splitComps, if_pos hx] at hc
      cases hc with
      | head => cases hch
      | tail _ h => exact ih c h ch hch
    · simp only [splitComps, if_neg hx] at hc
      obtain ⟨h, t, hh⟩ : ∃ h t, splitComps rest = h :: t := by
        cases hsr : splitComps rest with
        | nil => exact absurd hsr (splitComps_ne_nil rest)
        | cons h t => exact ⟨h, t, rfl⟩
      rw [hh] at hc
      simp only [List.headI, List.tail] at hc
      cases hc with
      | head =>
        cases hch with
        | head => exact hx
        | tail _ hch2 => exact ih h (hh ▸ List.Mem.head _) ch hch2
      | tail _ hmem => exact ih c (hh ▸ List.Mem.tail _ hmem) ch hch

theorem splitComps_of_no_slash : ∀ c : List Char, (∀ ch ∈ c, ch ≠ '/') →
    splitComps c = [c] := by
  intro c
  induction c with
  | nil => intro _; rfl
  | cons x rest ih =>
    intro h
    have hx : x ≠ '/' := h x (List.Mem.head _)
    rw [splitComps_cons_ne x rest hx, ih (fun ch hch => h ch (List.Mem.tail _ hch))]
    rfl

theorem splitComps_joinComps : ∀ comps : List (List Char), comps ≠ [] →
    (∀ c ∈ comps, ∀ ch ∈ c, ch ≠ '/') → splitComps (joinComps comps) = comps := by
  intro comps
  induction comps with
  | nil => intro h; exact absurd rfl h
  | cons c cs ih =>
    intro _ hns
    cases cs with
    | nil =>
      show splitComps (joinComps [c]) = [c]
      exact splitComps_of_no_slash c (hns c (List.Mem.head _))
    | cons c1 cs1 =>
      have hstep : joinComps (c :: c1 :: cs1) = c ++ '/' :: joinComps (c1 :: cs1) := rfl
      rw [hstep, splitComps_append,
        splitComps_of_no_slash c (hns c (List.Mem.head _)),
        ih (by simp) (fun d hd ch hch => hns d (List.Mem.tail _ hd) ch hch)]
      rfl

theorem normLoop_all_good : ∀ (hr : Bool) (comps acc : List (List Char)),
    (∀ c ∈ comps, goodComp c = true) → normLoop hr acc comps = acc.reverse ++ comps := by
  intro hr comps
  induction comps with
  | nil => intro acc _; simp [normLoop]
  | cons c cs ih =>
    intro acc hgood
    have hc := hgood c (List.Mem.head _)
    simp only [goodComp, Bool.and_eq_true, Bool.not_eq_true', beq_eq_false_iff_ne] at hc
    obtain ⟨⟨hc1, hc2⟩, hc3⟩ := hc
    simp only [normLoop]
    rw [if_neg (by tauto), if_pos (Or.inl hc3),
      ih (c :: acc) (fun d hd => hgood d (List.Mem.tail _ hd))]
    simp

theorem normLoop_mem_sub : ∀ (hr : Bool) (comps acc : List (List Char)) (x : List Char),
    x ∈ normLoop hr acc comps → x ∈ acc ∨ x ∈ comps := by
  intro hr comps
  induction comps with
  | nil =>
    intro acc x hx
    simp only [normLoop, List.mem_reverse] at hx
    exact Or.inl hx
  | cons c cs ih =>
    intro acc x hx
    simp only [normLoop] at hx
    by_cases h1 : c = [] ∨ c = ['.']
    · rw [if_pos h1] at hx
      rcases ih acc x hx with h | h
      · exact Or.inl h
      · exact Or.inr (List.Mem.tail _ h)
    · rw [if_neg h1] at hx
      by_cases h2 : c ≠ ['.', '.'] ∨ (hr = false ∧ acc = []) ∨ acc.headI = ['.', '.']
      · rw [if_pos h2] at hx
        rcases ih (c :: acc) x hx with h | h
        · cases h with
          | head => exact Or.inr (List.Mem.head _)
          | tail _ hmem => exact Or.inl hmem
        · exact Or.inr (List.Mem.tail _ h)
      · rw [if_neg h2] at hx
        rcases ih acc.tail x hx with h | h
        · cases acc with
          | nil => cases h
          | cons a t => exact Or.inl (List.Mem.tail _ h)
        · exact Or.inr (List.Mem.tail _ h)

theorem normLoop_good_of_root : ∀ (comps acc : List (List Char)),
    (∀ c ∈ acc, goodComp c = true) → ∀ x ∈ normLoop true acc comps, goodComp x = true := by
  intro comps
  induction comps with
  | nil =>
    intro acc hacc x hx
    simp only [normLoop, List.mem_reverse] at hx
    exact hacc x hx
  | cons c cs ih =>
    intro acc hacc x hx
    simp only [normLoop] at hx
    by_cases h1 : c = [] ∨ c = ['.']
    · rw [if_pos h1] at hx
      exact ih acc hacc x hx
    · rw [if_neg h1] at hx
      by_cases h2 : c ≠ ['.', '.'] ∨ (true = false ∧ acc = []) ∨ acc.headI = ['.', '.']
      · rw [if_pos h2] at hx
        have hcgood : goodComp c = true := by
          have hc3 : c ≠ ['.', '.'] := by
            rcases h2 with h | h | h
            · exact h
            · exact absurd h.1 (by simp)
            · cases acc with
              | nil => simp [List.headI] at h
              | cons a t =>
                have := hacc a (List.Mem.head _)
                simp only [List.headI] at h
                rw [h] at this
                simp [goodComp] at this
          simp only [goodComp, Bool.and_eq_true, Bool.not_eq_true', beq_eq_false_iff_ne]
          exact ⟨⟨fun he => h1 (Or.inl he), fun he => h1 (Or.inr he)⟩, hc3⟩
        refine ih (c :: acc) ?_ x hx
        intro d hd
        cases hd with
        | head => exact hcgood
        | tail _ hmem => exact hacc d hmem
      · rw [if_neg h2] at hx
        refine ih acc.tail ?_ x hx
        intro d hd
        cases acc with
        | nil => cases hd
        | cons a t => exact hacc d (List.Mem.tail _ hd)

theorem normal_destruct (p : List Char) (h : isNormalAbsL p = true) :
    ∃ r, p = '/' :: r ∧ r ≠ [] ∧ (splitComps r).all goodComp = true := by
  cases p with
  | nil => simp [isNormalAbsL] at h
  | cons c rest =>
    simp only [isNormalAbsL, Bool.and_eq_true, beq_iff_eq, bne_iff_ne] at h
    exact ⟨rest, by rw [h.1.1], h.1.2, h.2⟩

theorem take_one_ne_slash_of_good (r : List Char)
    (hall : (splitComps r).all goodComp = true) : r.take 1 ≠ ['/'] := by
  cases r with
  | nil => simp
  | cons c0 rs =>
    intro heq
    have hc0 : c0 = '/' := by simpa [List.take] using heq
    rw [hc0, splitComps_cons_slash] at hall
    simp [goodComp] at hall

theorem slashes_one (rest : List Char) (hfirst : rest.take 1 ≠ ['/']) :
    (('/' :: rest).take 3 = ['/', '/', '/']) = False ∧
    (('/' :: rest).take 2 = ['/', '/']) = False ∧
    (('/' :: rest).take 1 = ['/']) = True := by
  refine ⟨eq_false ?_, eq_false ?_, eq_true rfl⟩
  · intro heq
    cases rest with
    | nil => simp [List.take] at heq
    | cons r0 rs =>
      simp [List.take] at heq
      exact hfirst (by simp [List.take, heq.1])
  · intro heq
    cases rest with
    | nil => simp [List.take] at heq
    | cons r0 rs =>
      simp [List.take] at heq
      exact hfirst (by simp [List.take, heq])

theorem normpathL_of_normal (p : List Char) (h : isNormalAbsL p = true) :
    normpathL p = p := by
  obtain ⟨rest, hpeq, hrne, hall⟩ := normal_destruct p h
  subst hpeq
  obtain ⟨h3, h2, h1⟩ := slashes_one rest (take_one_ne_slash_of_good rest hall)
  have hloop : normLoop true [] (splitComps ('/' :: rest)) = splitComps rest := by
    rw [splitComps_cons_slash]
    have hskip : normLoop true [] ([] :: splitComps rest) =
        normLoop true [] (splitComps rest) := by
      simp [normLoop]
    rw [hskip, normLoop_all_good true (splitComps rest) [] (List.all_eq_true.mp hall)]
    rfl
  simp only [normpathL, h3, h2, h1, if_false, if_true]
  simp only [List.cons_ne_nil, if_false]
  norm_num
  have hb : ((1 : Nat) != 0) = true := rfl
  rw [hb, hloop, joinComps_splitComps]
  simp

theorem normpathL_concat (d r : List Char) (hd : isNormalAbsL d = true) (hrne : r ≠ [])
    (hr : (splitComps r).all goodComp = true) :
    normpathL (d ++ '/' :: r) = d ++ '/' :: r := by
  obtain ⟨dr, hdeq, hdne, hdall⟩ := normal_destruct d hd
  subst hdeq
  apply normpathL_of_normal
  show isNormalAbsL ('/' :: (dr ++ '/' :: r)) = true
  simp only [isNormalAbsL, Bool.and_eq_true, beq_iff_eq, bne_iff_ne]
  refine ⟨⟨trivial, by simp⟩, ?_⟩
  rw [splitComps_append, List.all_append, hdall, hr]
  rfl

theorem normpathL_abs_normal (p : List Char) (h1 : p.take 1 = ['/'])
    (h2 : p.take 2 ≠ ['/', '/']) :
    normpathL p = ['/'] ∨ isNormalAbsL (normpathL p) = true := by
  obtain ⟨c, rest, hpeq⟩ : ∃ c rest, p = c :: rest := by
    cases p with
    | nil => simp [List.take] at h1
    | cons c rest => exact ⟨c, rest, rfl⟩
  subst hpeq
  have hc : c = '/' := by simpa [List.take] using h1
  subst hc
  have hfirst : rest.take 1 ≠ ['/'] := by
    intro heq
    apply h2
    cases rest with
    | nil => simp [List.take] at heq
    | cons r0 rs =>
      have : r0 = '/' := by simpa [List.take] using heq
      simp [List.take, this]
  obtain ⟨h3, h2f, h1f⟩ := slashes_one rest hfirst
  have hgood : ∀ x ∈ normLoop true [] (splitComps rest), goodComp x = true :=
    normLoop_good_of_root (splitComps rest) [] (by intro c hc; cases hc)
  have hnoslash : ∀ x ∈ normLoop true [] (splitComps rest), ∀ ch ∈ x, ch ≠ '/' := by
    intro x hx ch hch
    rcases normLoop_mem_sub true (splitComps rest) [] x hx with h | h
    · cases h
    · exact splitComps_no_slash rest x h ch hch
  have hskip : normLoop true [] (splitComps ('/' :: rest)) =
      normLoop true [] (splitComps rest) := by
    rw [splitComps_cons_slash]
    simp [normLoop]
  simp only [normpathL, h3, h2f, h1f, if_false, if_true]
  simp only [List.cons_ne_nil, if_false]
  norm_num
  have hb : ((1 : Nat) != 0) = true := rfl
  rw [hb, hskip]
  cases hcomps : normLoop true [] (splitComps rest) with
  | nil =>
    left
    simp [joinComps]
  | cons c0 cs =>
    right
    have hbody : joinComps (c0 :: cs) ≠ [] := by
      have hc0 : goodComp c0 = true := hgood c0 (hcomps ▸ List.Mem.head _)
      have hc0ne : c0 ≠ [] := by
        simp only [goodComp, Bool.and_eq_true, Bool.not_eq_true', beq_eq_false_iff_ne] at hc0
        exact hc0.1.1
      cases cs with
      | nil => simpa [joinComps] using hc0ne
      | cons c1 cs1 =>
        have : joinComps (c0 :: c1 :: cs1) = c0 ++ '/' :: joinComps (c1 :: cs1) := rfl
        rw [this]
        intro hcontra
        rcases List.append_eq_nil.mp hcontra with ⟨_, h⟩
        cases h
    have hifne : ('/' :: joinComps (c0 :: cs)) ≠ [] := by simp
    rw [if_neg hifne]
    simp only [isNormalAbsL, Bool.and_eq_true, beq_iff_eq, bne_iff_ne]
    refine ⟨⟨trivial, hbody⟩, ?_⟩
    rw [splitComps_joinComps (c0 :: cs) (by simp)
      (fun x hx ch hch => hnoslash x (hcomps ▸ hx) ch hch)]
    rw [← hcomps]
    exact List.all_eq_true.mpr hgood

theorem getLast?_cons_ne_nil {x : Char} {xs : List Char} (h : xs ≠ []) :
    (x :: xs).getLast? = xs.getLast? := by
  cases xs with
  | nil => exact absurd rfl h
  | cons y t => exact List.getLast?_cons_cons

theorem getLast?_comps_ne_nil {x : List Char} {xs : List (List Char)} (h : xs ≠ []) :
    (x :: xs).getLast? = xs.getLast? := by
  cases xs with
  | nil => exact absurd rfl h
  | cons y t => exact List.getLast?_cons_cons

theorem splitComps_getLast_of_slash : ∀ l : List Char, l ≠ [] → l.getLast? = some '/' →
    (splitComps l).getLast? = some [] := by
  intro l
  induction l with
  | nil => intro h; exact absurd rfl h
  | cons c rest ih =>
    intro _ hlast
    cases hrest : rest with
    | nil =>
      subst hrest
      have hc : c = '/' := by simpa using hlast
      subst hc
      rfl
    | cons r0 rs =>
      have hrne : rest ≠ [] := by rw [hrest]; simp
      rw [← hrest] at *
      have hlast2 : rest.getLast? = some '/' := by
        rw [← getLast?_cons_ne_nil hrne]
        exact hlast
      have hih := ih hrne hlast2
      by_cases hc : c = '/'
      · rw [hc, splitComps_cons_slash, getLast?_comps_ne_nil (splitComps_ne_nil rest)]
        exact hih
      · rw [splitComps_cons_ne c rest hc]
        obtain ⟨h, t, hh⟩ := List.exists_cons_of_ne_nil (splitComps_ne_nil rest)
        rw [hh]
        simp only [List.headI, List.tail]
        cases t with
        | nil =>
          rw [hh] at hih
          simp at hih
          subst hih
          have : rest = [] := by
            have := joinComps_splitComps rest
            rw [hh] at this
            simpa [joinComps] using this.symm
          exact absurd this hrne
        | cons t0 ts =>
          rw [hh] at hih
          rw [getLast?_comps_ne_nil (by simp : (t0 :: ts : List (List Char)) ≠ [])] at hih ⊢
          exact hih

theorem joinL_normal (d b : List Char) (hd : isNormalAbsL d = true) (hb : b.take 1 ≠ ['/']) :
    joinL d b = d ++ '/' :: b := by
  obtain ⟨r, hdeq, hrne, hall⟩ := normal_destruct d hd
  subst hdeq
  have hlast : ('/' :: r).getLast? ≠ some '/' := by
    intro hcontra
    have := splitComps_getLast_of_slash ('/' :: r) (by simp) hcontra
    rw [splitComps_cons_slash, getLast?_comps_ne_nil (splitComps_ne_nil r)] at this
    have hmem := List.mem_of_getLast?_eq_some this
    have := List.all_eq_true.mp hall [] hmem
    simp [goodComp] at this
  unfold joinL
  rw [if_neg hb, if_neg (by simp [hlast])]

/-! Prefix and association-list lemmas used by the archive round-trip. -/

theorem isPrefixOf_append_drop : ∀ p l : List Char, p.isPrefixOf l = true →
    p ++ l.drop p.length = l := by
  intro p
  induction p with
  | nil => intro l _; simp
  | cons x xs ih =>
    intro l h
    cases l with
    | nil => simp [List.isPrefixOf] at h
    | cons y ys =>
      simp only [List.isPrefixOf, Bool.and_eq_true, beq_iff_eq] at h
      obtain ⟨hxy, hrest⟩ := h
      subst hxy
      have := ih ys hrest
      simpa [List.drop] using this

theorem isPrefixOf_of_append_left (a x l : List Char) (h : (a ++ x).isPrefixOf l = true) :
    a.isPrefixOf l = true :=
  List.isPrefixOf_iff_prefix.mpr
    ((List.prefix_append a x).trans (List.isPrefixOf_iff_prefix.mp h))

theorem length_le_of_isPrefixOf (p l : List Char) (h : p.isPrefixOf l = true) :
    p.length ≤ l.length :=
  (List.isPrefixOf_iff_prefix.mp h).length_le

theorem strip_injective (pfxL a b : List Char)
    (ha : pfxL.isPrefixOf a = true) (hb : pfxL.isPrefixOf b = true)
    (hdrop : a.drop pfxL.length = b.drop pfxL.length) : a = b := by
  rw [← isPrefixOf_append_drop pfxL a ha, ← isPrefixOf_append_drop pfxL b hb, hdrop]

theorem FS.mem_of_read {fs : FS} {p : String} {c : Content} (h : fs.read p = some c) :
    (p, c) ∈ fs := by
  unfold FS.read at h
  cases hf : fs.find? (fun e => e.1 == p) with
  | none => rw [hf] at h; cases h
  | some e =>
    rw [hf] at h
    have hmem := List.mem_of_find?_eq_some hf
    have hpred := List.find?_some hf
    simp only [beq_iff_eq] at hpred
    simp only [Option.map_some'] at h
    have he : e = (p, c) := by
      cases e with
      | mk e1 e2 =>
        simp only at hpred h
        cases h
        rw [hpred]
    rw [← he]
    exact hmem

theorem FS.read_of_mem_nodup {fs : FS} {p : String} {c : Content}
    (hnodup : (fs.map Prod.fst).Nodup) (hmem : (p, c) ∈ fs) : fs.read p = some c := by
  induction fs with
  | nil => cases hmem
  | cons e rest ih =>
    simp only [List.map_cons, List.nodup_cons] at hnodup
    cases hmem with
    | head =>
      simp [FS.read, List.find?_cons]
    | tail _ hmem2 =>
      have hne : e.1 ≠ p := by
        intro heq
        apply hnodup.1
        rw [heq]
        exact List.mem_map.mpr ⟨(p, c), hmem2, rfl⟩
      have hne2 : (e.1 == p) = false := by simpa using hne
      unfold FS.read at ih ⊢
      rw [List.find?_cons, hne2]
      exact ih hnodup.2 hmem2

theorem FS.write_keys_nodup (fs : FS) (p : String) (c : Content)
    (h : (fs.map Prod.fst).Nodup) : ((fs.write p c).map Prod.fst).Nodup := by
  unfold FS.write
  simp only [List.map_cons, List.nodup_cons]
  constructor
  · intro hmem
    obtain ⟨e, hemem, heq⟩ := List.mem_map.mp hmem
    have := (List.mem_filter.mp hemem).2
    rw [heq] at this
    simp at this
  · exact h.sublist ((List.filter_sublist fs).map Prod.fst)

theorem extractall_cons (cwd : String) (m : String × Content)
    (rest : List (String × Content)) (path : String) (fs : FS) :
    extractall cwd (m :: rest) path fs =
      extractall cwd rest path
        (fs.write (ospath_abspath cwd (ospath_join path m.1)) m.2) := rfl

theorem extractall_read_not_target (cwd path : String) :
    ∀ (members : List (String × Content)) (fs : FS) (p : String),
      (∀ m ∈ members, p ≠ ospath_abspath cwd (ospath_join path m.1)) →
      (extractall cwd members path fs).read p = fs.read p := by
  intro members
  induction members with
  | nil => intro fs p _; rfl
  | cons m rest ih =>
    intro fs p hne
    rw [extractall_cons, ih _ p (fun m2 hm2 => hne m2 (List.Mem.tail _ hm2)),
      FS.read_write_ne _ _ _ _ (hne m (List.Mem.head _))]

theorem extractall_read_target (cwd path : String) :
    ∀ (members : List (String × Content)) (fs : FS) (m : String × Content),
      m ∈ members →
      (members.map (fun m2 => ospath_abspath cwd (ospath_join path m2.1))).Nodup →
      (extractall cwd members path fs).read
        (ospath_abspath cwd (ospath_join path m.1)) = some m.2 := by
  intro members
  induction members with
  | nil => intro fs m hmem; cases hmem
  | cons m0 rest ih =>
    intro fs m hmem hnodup
    simp only [List.map_cons, List.nodup_cons] at hnodup
    rw [extractall_cons]
    cases hmem with
    | head =>
      rw [extractall_read_not_target cwd path rest _ _ (fun m2 hm2 heq => hnodup.1
        (by rw [heq]; exact List.mem_map.mpr ⟨m2, hm2, rfl⟩))]
      exact FS.read_write_self _ _ _
    | tail _ hmem2 => exact ih _ m hmem2 hnodup.2

theorem extractall_keys_nodup (cwd path : String) :
    ∀ (members : List (String × Content)) (fs : FS),
      (fs.map Prod.fst).Nodup → ((extractall cwd members path fs).map Prod.fst).Nodup := by
  intro members
  induction members with
  | nil => intro fs h; exact h
  | cons m rest ih =>
    intro fs h
    rw [extractall_cons]
    exact ih _ (FS.write_keys_nodup fs _ _ h)

theorem extractall_keys_sub (cwd path : String) :
    ∀ (members : List (String × Content)) (fs : FS) (q : String),
      q ∈ (extractall cwd members path fs).map Prod.fst →
      q ∈ fs.map Prod.fst ∨ ∃ m ∈ members, q = ospath_abspath cwd (ospath_join path m.1) := by
  intro members
  induction members with
  | nil => intro fs q h; exact Or.inl h
  | cons m rest ih =>
    intro fs q h
    rw [extractall_cons] at h
    rcases ih _ q h with h2 | h2
    · unfold FS.write at h2
      simp only [List.map_cons, List.mem_cons] at h2
      rcases h2 with h3 | h3
      · exact Or.inr ⟨m, List.Mem.head _, h3⟩
      · obtain ⟨e, hemem, heq⟩ := List.mem_map.mp h3
        exact Or.inl (List.mem_map.mpr ⟨e, (List.filter_sublist fs).subset hemem, heq⟩)
    · obtain ⟨m2, hm2, heq⟩ := h2
      exact Or.inr ⟨m2, List.Mem.tail _ hm2, heq⟩

theorem archive_add_mem_of_read (sourceDir : String) (fs : FS) (p : String) (c : Content)
    (hpfx : (sourceDir.data ++ ['/']).isPrefixOf p.data = true)
    (hread : fs.read p = some c) :
    (String.mk (p.data.drop (sourceDir.data.length + 1)), c) ∈ archive_add sourceDir fs := by
  refine List.mem_filterMap.mpr ⟨(p, c), FS.mem_of_read hread, ?_⟩
  simp only [hpfx, if_pos]

theorem archive_add_mem_spec (sourceDir : String) (fs : FS) (nc : String × Content)
    (h : nc ∈ archive_add sourceDir fs) :
    ∃ e ∈ fs, (sourceDir.data ++ ['/']).isPrefixOf e.1.data = true ∧
      nc = (String.mk (e.1.data.drop (sourceDir.data.length + 1)), e.2) := by
  obtain ⟨e, hemem, heq⟩ := List.mem_filterMap.mp h
  by_cases hp : (sourceDir.data ++ ['/']).isPrefixOf e.1.data = true
  · rw [if_pos hp] at heq
    cases heq
    exact ⟨e, hemem, hp, rfl⟩
  · rw [if_neg hp] at heq
    cases heq

theorem archive_add_names_nodup (sourceDir : String) : ∀ fs : FS,
    (fs.map Prod.fst).Nodup → ((archive_add sourceDir fs).map Prod.fst).Nodup := by
  intro fs
  induction fs with
  | nil => intro _; simp [archive_add]
  | cons e rest ih =>
    intro h
    simp only [List.map_cons, List.nodup_cons] at h
    by_cases hp : (sourceDir.data ++ ['/']).isPrefixOf e.1.data = true
    · have hp' : List.IsPrefix (sourceDir.data ++ ['/']) e.1.data :=
        List.isPrefixOf_iff_prefix.mp hp
      have harc : archive_add sourceDir (e :: rest) =
          (String.mk (e.1.data.drop (sourceDir.data.length + 1)), e.2) ::
            archive_add sourceDir rest := by
        simp [archive_add, List.filterMap_cons, hp']
      rw [harc]
      simp only [List.map_cons, List.nodup_cons]
      refine ⟨?_, ih h.2⟩
      intro hmem
      obtain ⟨nc, hncmem, hnceq⟩ := List.mem_map.mp hmem
      obtain ⟨e2, he2mem, hp2, hnc2⟩ := archive_add_mem_spec sourceDir rest nc hncmem
      apply h.1
      have h1 : nc.1 = String.mk (e2.1.data.drop (sourceDir.data.length + 1)) := by
        rw [hnc2]
      have hmk : String.mk (e2.1.data.drop (sourceDir.data.length + 1)) =
          String.mk (e.1.data.drop (sourceDir.data.length + 1)) := by
        rw [← h1, hnceq]
      injection hmk with hdrop
      have hlen : sourceDir.data.length + 1 = (sourceDir.data ++ ['/']).length := by simp
      rw [hlen] at hdrop
      have hdata : e2.1.data = e.1.data := strip_injective _ _ _ hp2 hp hdrop
      have he12 : e.1 = e2.1 := by
        have h2 := congrArg String.mk hdata
        exact h2.symm
      rw [he12]
      exact List.mem_map.mpr ⟨e2, he2mem, rfl⟩
    · have hp' : ¬ List.IsPrefix (sourceDir.data ++ ['/']) e.1.data :=
        fun hc => hp (List.isPrefixOf_iff_prefix.mpr hc)
      have harc : archive_add sourceDir (e :: rest) = archive_add sourceDir rest := by
        simp [archive_add, List.filterMap_cons, hp']
      rw [harc]
      exact ih h.2

/-! Claim theorem C7. -/

/-- C7: the archive produced by `tar.add(sourceDir, arcname='')` is rooted at
`sourceDir`'s children: every file under `sourceDir` appears as an entry named
by its path relative to `sourceDir` (completeness), and conversely every entry,
re-rooted at `sourceDir`, reads back exactly its content — so entry names are
relative paths and `sourceDir`'s own directory name is part of no entry name. -/
theorem archive_add_rooted_at_children (sourceDir : String) (fs : FS) :
    (∀ (p : String) (c : Content),
      (sourceDir.data ++ ['/']).isPrefixOf p.data = true → fs.read p = some c →
        (String.mk (p.data.drop (sourceDir.data.length + 1)), c) ∈
          archive_add sourceDir fs) ∧
    ((fs.map Prod.fst).Nodup →
      ∀ nc ∈ archive_add sourceDir fs,
        fs.read (String.mk (sourceDir.data ++ '/' :: nc.1.data)) = some nc.2) := by
  constructor
  · intro p c hpfx hread
    exact archive_add_mem_of_read sourceDir fs p c hpfx hread
  · intro hnodup nc hmem
    obtain ⟨e, hemem, hp, hnc⟩ := archive_add_mem_spec sourceDir fs nc hmem
    have hnc1 : nc.1.data = e.1.data.drop (sourceDir.data.length + 1) := by
      rw [hnc]
    have hnc2 : nc.2 = e.2 := by rw [hnc]
    have hlen : sourceDir.data.length + 1 = (sourceDir.data ++ ['/']).length := by simp
    have hpath : sourceDir.data ++ '/' :: nc.1.data = e.1.data := by
      rw [hnc1, List.append_cons, hlen]
      exact isPrefixOf_append_drop _ _ hp
    have hkey : String.mk (sourceDir.data ++ '/' :: nc.1.data) = e.1 := by
      rw [hpath]
    rw [hkey, hnc2]
    exact FS.read_of_mem_nodup hnodup (by exact hemem)

/-- Witness for C7 at a concrete input: for source directory `/tmp/config-dir`
holding `/tmp/config-dir/a/b` (plus an unrelated file), the archive contains
the entry named `a/b`, and that entry re-rooted at the source directory reads
back the original content. -/
theorem archive_add_rooted_at_children_witness :
    ((String.mk ("/tmp/config-dir/a/b".data.drop ("/tmp/config-dir".data.length + 1)),
        Content.bytes "X") ∈
      archive_add "/tmp/config-dir"
        [("/tmp/config-dir/a/b", Content.bytes "X"), ("/other", Content.bytes "Y")]) ∧
    FS.read [("/tmp/config-dir/a/b", Content.bytes "X"), ("/other", Content.bytes "Y")]
      (String.mk ("/tmp/config-dir".data ++ '/' ::
        (String.mk ("/tmp/config-dir/a/b".data.drop
          ("/tmp/config-dir".data.length + 1))).data)) =
      some (Content.bytes "X") := by
  have H := archive_add_rooted_at_children "/tmp/config-dir"
    [("/tmp/config-dir/a/b", Content.bytes "X"), ("/other", Content.bytes "Y")]
  have h1 := H.1 "/tmp/config-dir/a/b" (Content.bytes "X") rfl rfl
  exact ⟨h1, H.2 (by decide) _ h1⟩

theorem abspath_of_normal (cwd p : String) (h : isNormalAbsL p.data = true) :
    ospath_abspath cwd p = p := by
  obtain ⟨r, h1, _, _⟩ := normal_destruct p.data h
  have ht : p.data.take 1 = ['/'] := by rw [h1]; rfl
  unfold ospath_abspath abspathL
  rw [if_pos ht, normpathL_of_normal p.data h]

/-! Claim theorem C6. -/

/-- C6: for a well-formed archive — all member names relative, resolving to
pairwise-distinct paths strictly inside the (normalised, absolute) destination
directory — extracted into a destination holding nothing, `safe_extract`
succeeds, and re-archiving the resulting tree and extracting that archive into
a fresh (normalised, absolute) empty destination reproduces byte-identical
content for every original member at the corresponding relative path. -/
theorem safe_extract_archive_roundtrip
    (cwd dest dest2 : String) (tar : List (String × Content)) (fs0 : FS)
    (hdest : isNormalAbsL dest.data = true)
    (hdest2 : isNormalAbsL dest2.data = true)
    (hrel : ∀ m ∈ tar, m.1.data.take 1 ≠ ['/'])
    (hin : ∀ m ∈ tar, (dest.data ++ ['/']).isPrefixOf
        (ospath_abspath cwd (ospath_join dest m.1)).data = true)
    (hnodup : (tar.map (fun m => ospath_abspath cwd (ospath_join dest m.1))).Nodup)
    (hkeys : (fs0.map Prod.fst).Nodup)
    (hempty : ∀ q ∈ fs0.map Prod.fst, (dest.data ++ ['/']).isPrefixOf q.data = false) :
    safe_extract cwd tar dest fs0 = (Except.ok (), extractall cwd tar dest fs0) ∧
    ∀ m ∈ tar,
      (extractall cwd (archive_add dest (extractall cwd tar dest fs0)) dest2 []).read
        (ospath_abspath cwd (ospath_join dest2
          (String.mk ((ospath_abspath cwd (ospath_join dest m.1)).data.drop
            (dest.data.length + 1))))) = some m.2 := by
  obtain ⟨dr, hdeq, hdrne, hdall⟩ := normal_destruct dest.data hdest
  obtain ⟨d0, dr', hdr⟩ : ∃ d0 dr', dr = d0 :: dr' := by
    cases dr with
    | nil => exact absurd rfl hdrne
    | cons d0 dr' => exact ⟨d0, dr', rfl⟩
  have hd0 : d0 ≠ '/' := by
    have h := take_one_ne_slash_of_good dr hdall
    rw [hdr] at h
    intro hc
    exact h (by rw [hc]; rfl)
  have hval : validate_members cwd dest tar = Except.ok () := by
    rw [validate_members_ok_iff]
    intro m hm
    have hpr : dest.data.isPrefixOf
        (ospath_abspath cwd (ospath_join dest m.1)).data = true :=
      isPrefixOf_of_append_left _ _ _ (hin m hm)
    have hlcp := (lcpL_eq_left_iff dest.data
      (ospath_abspath cwd (ospath_join dest m.1)).data).mpr hpr
    simp only [is_within_directory]
    rw [abspath_of_normal cwd dest hdest]
    unfold common_pfx
    rw [beq_iff_eq, hlcp]
  have hmfacts : ∀ m ∈ tar,
      (ospath_abspath cwd (ospath_join dest m.1)).data =
        dest.data ++ '/' :: ((ospath_abspath cwd (ospath_join dest m.1)).data.drop
          (dest.data.length + 1)) ∧
      (splitComps ((ospath_abspath cwd (ospath_join dest m.1)).data.drop
        (dest.data.length + 1))).all goodComp = true ∧
      ((ospath_abspath cwd (ospath_join dest m.1)).data.drop
        (dest.data.length + 1)).take 1 ≠ ['/'] ∧
      ((ospath_abspath cwd (ospath_join dest m.1)).data.drop
        (dest.data.length + 1)) ≠ [] := by
    intro m hm
    have hlen : (dest.data ++ ['/']).length = dest.data.length + 1 := by simp
    have hsplit : (ospath_abspath cwd (ospath_join dest m.1)).data =
        dest.data ++ '/' :: ((ospath_abspath cwd (ospath_join dest m.1)).data.drop
          (dest.data.length + 1)) := by
      rw [List.append_cons, ← hlen]
      exact (isPrefixOf_append_drop _ _ (hin m hm)).symm
    have htake1 : (dest.data ++ '/' :: m.1.data).take 1 = ['/'] := by rw [hdeq]; rfl
    have htake2 : (dest.data ++ '/' :: m.1.data).take 2 ≠ ['/', '/'] := by
      rw [hdeq, hdr]
      intro hc
      have : d0 = '/' := by simpa [List.take] using hc
      exact hd0 this
    have hjoin : ospath_join dest m.1 = String.mk (dest.data ++ '/' :: m.1.data) := by
      unfold ospath_join
      rw [joinL_normal dest.data m.1.data hdest (hrel m hm)]
    have habs : (ospath_abspath cwd (ospath_join dest m.1)).data =
        normpathL (dest.data ++ '/' :: m.1.data) := by
      rw [hjoin]
      unfold ospath_abspath abspathL
      rw [if_pos htake1]
    have hnorm := normpathL_abs_normal (dest.data ++ '/' :: m.1.data) htake1 htake2
    rw [← habs] at hnorm
    have hnorm2 : isNormalAbsL (ospath_abspath cwd (ospath_join dest m.1)).data = true := by
      rcases hnorm with h | h
      · exfalso
        have hle := length_le_of_isPrefixOf _ _ (hin m hm)
        rw [h] at hle
        rw [hdeq, hdr] at hle
        simp at hle
      · exact h
    obtain ⟨rr, hr1, hr2, hr3⟩ := normal_destruct _ hnorm2
    have h0 : ('/' : Char) :: rr = dest.data ++ '/' ::
        ((ospath_abspath cwd (ospath_join dest m.1)).data.drop
          (dest.data.length + 1)) :=
      hr1.symm.trans hsplit
    have h1 : ('/' : Char) :: rr = '/' :: (dr ++ '/' ::
        ((ospath_abspath cwd (ospath_join dest m.1)).data.drop
          (dest.data.length + 1))) := by
      rw [h0, hdeq, List.cons_append]
    have hrr : rr = dr ++ '/' ::
        ((ospath_abspath cwd (ospath_join dest m.1)).data.drop
          (dest.data.length + 1)) := by
      injection h1
    have hgoodr : (splitComps ((ospath_abspath cwd (ospath_join dest m.1)).data.drop
        (dest.data.length + 1))).all goodComp = true := by
      rw [hrr, splitComps_append, List.all_append, Bool.and_eq_true] at hr3
      exact hr3.2
    have hrm_ne : ((ospath_abspath cwd (ospath_join dest m.1)).data.drop
        (dest.data.length + 1)) ≠ [] := by
      intro hc
      rw [hc] at hgoodr
      simp [splitComps, goodComp] at hgoodr
    exact ⟨hsplit, hgoodr, take_one_ne_slash_of_good _ hgoodr, hrm_ne⟩
  have hkeys1 : ((extractall cwd tar dest fs0).map Prod.fst).Nodup :=
    extractall_keys_nodup cwd dest tar fs0 hkeys
  have hread1 : ∀ m ∈ tar, (extractall cwd tar dest fs0).read
      (ospath_abspath cwd (ospath_join dest m.1)) = some m.2 :=
    fun m hm => extractall_read_target cwd dest tar fs0 m hm hnodup
  have hmem2 : ∀ m ∈ tar,
      (String.mk ((ospath_abspath cwd (ospath_join dest m.1)).data.drop
        (dest.data.length + 1)), m.2) ∈
        archive_add dest (extractall cwd tar dest fs0) :=
    fun m hm => archive_add_mem_of_read dest _ _ m.2 (hin m hm) (hread1 m hm)
  have htar2 : ∀ nc ∈ archive_add dest (extractall cwd tar dest fs0),
      ospath_abspath cwd (ospath_join dest2 nc.1) =
        String.mk (dest2.data ++ '/' :: nc.1.data) := by
    intro nc hnc
    obtain ⟨e, hemem, hpfx, hnceq⟩ := archive_add_mem_spec dest _ nc hnc
    have hkeymem : e.1 ∈ (extractall cwd tar dest fs0).map Prod.fst :=
      List.mem_map.mpr ⟨e, hemem, rfl⟩
    rcases extractall_keys_sub cwd dest tar fs0 e.1 hkeymem with hold | hnew
    · rw [hempty e.1 hold] at hpfx
      cases hpfx
    · obtain ⟨m', hm', heq⟩ := hnew
      obtain ⟨hsplit', hgood', htake', hne'⟩ := hmfacts m' hm'
      have hnc1 : nc.1.data = (ospath_abspath cwd (ospath_join dest m'.1)).data.drop
          (dest.data.length + 1) := by
        rw [hnceq, heq]
      have hjoin2 : ospath_join dest2 nc.1 =
          String.mk (dest2.data ++ '/' :: nc.1.data) := by
        unfold ospath_join
        rw [joinL_normal dest2.data nc.1.data hdest2 (by rw [hnc1]; exact htake')]
      rw [hjoin2]
      obtain ⟨dr2, hd2eq, hd2ne, hd2all⟩ := normal_destruct dest2.data hdest2
      unfold ospath_abspath abspathL
      rw [if_pos (show (String.mk (dest2.data ++ '/' :: nc.1.data)).data.take 1 = ['/'] by
        rw [show (String.mk (dest2.data ++ '/' :: nc.1.data)).data =
          dest2.data ++ '/' :: nc.1.data from rfl, hd2eq]; rfl)]
      rw [show (String.mk (dest2.data ++ '/' :: nc.1.data)).data =
        dest2.data ++ '/' :: nc.1.data from rfl]
      rw [normpathL_concat dest2.data nc.1.data hdest2
        (by rw [hnc1]; exact hne') (by rw [hnc1]; exact hgood')]
  have hinj : Function.Injective (fun s : String => String.mk (dest2.data ++ '/' :: s.data)) := by
    intro a b hab
    simp only at hab
    injection hab with h
    have h2 := List.append_cancel_left h
    injection h2 with _ h3
    have h4 := congrArg String.mk h3
    exact h4
  have htargets : ((archive_add dest (extractall cwd tar dest fs0)).map
      (fun nc => ospath_abspath cwd (ospath_join dest2 nc.1))).Nodup := by
    rw [List.map_congr_left htar2]
    have h2 : (((archive_add dest (extractall cwd tar dest fs0)).map Prod.fst).map
        (fun s => String.mk (dest2.data ++ '/' :: s.data))).Nodup :=
      (archive_add_names_nodup dest (extractall cwd tar dest fs0) hkeys1).map hinj
    rw [List.map_map] at h2
    exact h2
  refine ⟨?_, ?_⟩
  · unfold safe_extract
    rw [hval]
  · intro m hm
    exact extractall_read_target cwd dest2 (archive_add dest (extractall cwd tar dest fs0)) []
      (String.mk ((ospath_abspath cwd (ospath_join dest m.1)).data.drop
        (dest.data.length + 1)), m.2)
      (hmem2 m hm) htargets

/-- Witness for C6 at a concrete input: a two-member archive with relative
within-tree names extracts into `/tmp/config-dir`, and re-extracting its
re-archived tree into the empty `/tmp/out` reproduces the first member's
bytes at the corresponding path. -/
theorem safe_extract_archive_roundtrip_witness :
    safe_extract "/" [("a/b.txt", Content.bytes "K"), ("c.txt", Content.bytes "L")]
        "/tmp/config-dir" [] =
      (Except.ok (), extractall "/"
        [("a/b.txt", Content.bytes "K"), ("c.txt", Content.bytes "L")] "/tmp/config-dir" []) ∧
    (extractall "/" (archive_add "/tmp/config-dir"
        (extractall "/" [("a/b.txt", Content.bytes "K"), ("c.txt", Content.bytes "L")]
          "/tmp/config-dir" [])) "/tmp/out" []).read
      (ospath_abspath "/" (ospath_join "/tmp/out"
        (String.mk ((ospath_abspath "/"
          (ospath_join "/tmp/config-dir" "a/b.txt")).data.drop
          ("/tmp/config-dir".data.length + 1))))) = some (Content.bytes "K") := by
  have H := safe_extract_archive_roundtrip "/" "/tmp/config-dir" "/tmp/out"
    [("a/b.txt", Content.bytes "K"), ("c.txt", Content.bytes "L")] []
    (by decide) (by decide) (by decide) (by decide) (by decide) (by decide) (by decide)
  exact ⟨H.1, H.2 ("a/b.txt", Content.bytes "K") (List.Mem.head _)⟩
